import Mathlib

/-!
Verification of the RLgraph distributed rollout-collection worker
(`rlgraph/execution/ray/ray_worker.py`).

The development shallowly embeds the worker's sampling loop
(`RayWorker.execute_and_get_timesteps`), its post-processing
(`RayWorker._process_sample_if_necessary`, in particular the n-step return
adjustment and the priority-weight computation) and the statistics report
(`RayWorker.get_workload_statistics`).

Modelling conventions:
* Python floats are modelled as exact rationals (`ℚ`); the one claim about
  IEEE non-finite values uses a dedicated extended-float type `EFloat`.
* The external collaborators (vectorized environment, per-slot preprocessor
  stack, the agent's policy and td-loss, the compression codec) are abstract
  section variables, exactly as the specification treats them.
* Python lists mutated in place become functional lists threaded through the
  recursions; `while` loops become fuel-indexed structural recursions where
  the fuel is chosen large enough that it is never exhausted (the theorems
  about the loops show this).
-/

/-! ## Small list helper lemmas (getD / set / take interaction) -/

theorem getD_set_self {α : Type _} (l : List α) (i : ℕ) (v d : α) (h : i < l.length) :
    (l.set i v).getD i d = v := by
  induction l generalizing i with
  | nil => simp at h
  | cons x xs ih =>
    cases i with
    | zero => simp [List.set, List.getD]
    | succ n =>
      simp only [List.set, List.getD, List.getElem?_cons_succ]
      exact ih n (by simpa using h)

theorem getD_set_ne {α : Type _} (l : List α) (i m : ℕ) (v d : α) (h : i ≠ m) :
    (l.set i v).getD m d = l.getD m d := by
  induction l generalizing i m with
  | nil => simp [List.set]
  | cons x xs ih =>
    cases i with
    | zero =>
      cases m with
      | zero => exact absurd rfl h
      | succ n => simp [List.set, List.getD]
    | succ n =>
      cases m with
      | zero => simp [List.set, List.getD]
      | succ p =>
        simp only [List.set, List.getD, List.getElem?_cons_succ]
        exact ih n p (fun hc => h (by rw [hc]))

theorem set_set_same {α : Type _} (l : List α) (i : ℕ) (a b : α) :
    (l.set i a).set i b = l.set i b := by
  induction l generalizing i with
  | nil => simp [List.set]
  | cons x xs ih =>
    cases i with
    | zero => simp [List.set]
    | succ n => simp only [List.set]; rw [ih]

theorem getD_take {α : Type _} (l : List α) (n i : ℕ) (d : α) (h : i < n) :
    (l.take n).getD i d = l.getD i d := by
  induction l generalizing n i with
  | nil => simp
  | cons x xs ih =>
    cases n with
    | zero => simp at h
    | succ m =>
      cases i with
      | zero => simp [List.getD]
      | succ p =>
        simp only [List.take, List.getD, List.getElem?_cons_succ]
        exact ih m p (by omega)

theorem length_set_eq {α : Type _} (l : List α) (i : ℕ) (v : α) :
    (l.set i v).length = l.length := by
  simp

/-! ## Data model: transition batches

`Batch` is the ordered transition batch assembled at the end of
`execute_and_get_timesteps` (lines 304-326): five parallel lists
`(states, actions, rewards, next_states, terminals)`. -/

structure Batch (σ α : Type) where
  states : List σ
  actions : List α
  rewards : List ℚ
  next_states : List σ
  terminals : List Bool
deriving DecidableEq

/-- Python `del arr[newLen:]` where `newLen : Int` may be negative
(`new_len = len(states) - self.n_step_adjustment + 1` can be negative for a
batch shorter than the lookahead).  A negative slice start counts from the
end of the list, clamped at 0. -/
def pyDelFrom {α : Type _} (arr : List α) (newLen : Int) : List α :=
  if 0 ≤ newLen then arr.take newLen.toNat
  else arr.take (arr.length - (-newLen).toNat)

/-! ## NStepAdjuster (`_process_sample_if_necessary`, lines 406-422)

The inner loop (`for j in range_(1, self.n_step_adjustment)`) mutates
`next_states[i]` and `rewards[i]` in place and breaks at the first
`terminals[i + j]`; the outer loop walks `i` over
`range_(len(rewards) - self.n_step_adjustment + 1)` and skips indices whose
own transition is terminal.  Both loops are embedded as structural
recursions on an explicit fuel which is instantiated so that it is never
exhausted (`k` for the inner loop, the loop bound for the outer loop). -/

def nstepInner {σ : Type} [Inhabited σ] (γ : ℚ) (terminals : List Bool) (i k : ℕ) :
    ℕ → ℕ → List ℚ → List σ → List ℚ × List σ
  | _, 0, rewards, next_states => (rewards, next_states)
  | j, fuel+1, rewards, next_states =>
    if j < k then
      let ns := next_states.set i (next_states.getD (i + j) default)
      let rw := rewards.set i (rewards.getD i 0 + γ ^ j * rewards.getD (i + j) 0)
      if terminals.getD (i + j) false then (rw, ns)
      else nstepInner γ terminals i k (j + 1) fuel rw ns
    else (rewards, next_states)

def nstepOuter {σ : Type} [Inhabited σ] (γ : ℚ) (k bound : ℕ) (terminals : List Bool) :
    ℕ → ℕ → List ℚ → List σ → List ℚ × List σ
  | _, 0, rewards, next_states => (rewards, next_states)
  | i, fuel+1, rewards, next_states =>
    if i < bound then
      if terminals.getD i false then
        nstepOuter γ k bound terminals (i + 1) fuel rewards next_states
      else
        let rn := nstepInner γ terminals i k 1 k rewards next_states
        nstepOuter γ k bound terminals (i + 1) fuel rn.1 rn.2
    else (rewards, next_states)

/-- The n-step adjustment and truncation block of
`_process_sample_if_necessary` (lines 406-422): guarded by
`self.n_step_adjustment > 1`, rewrites `rewards`/`next_states`, then truncates
all five lists to `len(states) - self.n_step_adjustment + 1`. -/
def nstepAdjust {σ α : Type} [Inhabited σ] (γ : ℚ) (k : ℕ) (b : Batch σ α) : Batch σ α :=
  if 1 < k then
    let bound := b.rewards.length + 1 - k
    let rn := nstepOuter γ k bound b.terminals 0 bound b.rewards b.next_states
    let newLen : Int := (b.states.length : Int) - (k : Int) + 1
    { states := pyDelFrom b.states newLen
      actions := pyDelFrom b.actions newLen
      rewards := pyDelFrom rn.1 newLen
      next_states := pyDelFrom rn.2 newLen
      terminals := pyDelFrom b.terminals newLen }
  else b

/-! Specification-side description of the adjustment (used to state claim C3):
the discounted sum `Σ_{j=0}^{k-1} γ^j · reward[i+j]`, stopping (treating later
terms as 0) at the first `j` with `terminal[i+j]`, and the offset of the
transition at which the window stops. -/

def nstepSumFrom (γ : ℚ) (rewards : List ℚ) (terminals : List Bool) (i : ℕ) :
    ℕ → ℕ → ℚ
  | _, 0 => 0
  | j, rem+1 =>
    γ ^ j * rewards.getD (i + j) 0 +
      (if terminals.getD (i + j) false then 0
       else nstepSumFrom γ rewards terminals i (j + 1) rem)

def nstepStopFrom (terminals : List Bool) (i : ℕ) : ℕ → ℕ → ℕ
  | j, 0 => j - 1
  | j, rem+1 =>
    if terminals.getD (i + j) false then j
    else nstepStopFrom terminals i (j + 1) rem

/-- The claimed k-step return at index `i`: sum over the window of `k` terms
starting at offset 0, cut short at the first terminal inside the window. -/
def nstepReturn (γ : ℚ) (rewards : List ℚ) (terminals : List Bool) (i k : ℕ) : ℚ :=
  nstepSumFrom γ rewards terminals i 0 k

/-- The claimed stopping offset for the `next_state` rewrite: `k-1`, or the
offset of the first terminal in the window when the summation stops early. -/
def nstepStop (terminals : List Bool) (i k : ℕ) : ℕ :=
  nstepStopFrom terminals i 0 k

/-! ## Characterization of the inner n-step window loop -/

theorem nstepSumFrom_set (γ : ℚ) (r : List ℚ) (t : List Bool) (i p : ℕ) (v : ℚ) :
    ∀ rem j, p < i + j →
      nstepSumFrom γ (r.set p v) t i j rem = nstepSumFrom γ r t i j rem := by
  intro rem
  induction rem with
  | zero => intro j _; simp [nstepSumFrom]
  | succ m ih =>
    intro j h
    simp only [nstepSumFrom]
    rw [getD_set_ne r p (i + j) v 0 (by omega), ih (j + 1) (by omega)]

theorem nstepStopFrom_ge (t : List Bool) (i : ℕ) :
    ∀ rem j, j - 1 ≤ nstepStopFrom t i j rem := by
  intro rem
  induction rem with
  | zero => intro j; simp [nstepStopFrom]
  | succ m ih =>
    intro j
    simp only [nstepStopFrom]
    split
    · omega
    · have := ih (j + 1); omega

theorem nstepInner_of_ge {σ : Type} [Inhabited σ] (γ : ℚ) (t : List Bool) (i k j fuel : ℕ)
    (r : List ℚ) (n : List σ) (h : k ≤ j) :
    nstepInner γ t i k j fuel r n = (r, n) := by
  cases fuel with
  | zero => simp [nstepInner]
  | succ m => simp only [nstepInner, if_neg (by omega : ¬ j < k)]

theorem nstepInner_spec {σ : Type} [Inhabited σ] (γ : ℚ) (t : List Bool) (i k : ℕ) :
    ∀ fuel j (r : List ℚ) (n : List σ),
      1 ≤ j → j < k → k ≤ j + fuel → i + k ≤ r.length → i + k ≤ n.length →
      nstepInner γ t i k j fuel r n =
        (r.set i (r.getD i 0 + nstepSumFrom γ r t i j (k - j)),
         n.set i (n.getD (i + nstepStopFrom t i j (k - j)) default)) := by
  intro fuel
  induction fuel with
  | zero => intro j r n h1 h2 h3 _ _; omega
  | succ fuel ih =>
    intro j r n h1 h2 h3 hr hn
    have hiL : i < r.length := by omega
    have hiN : i < n.length := by omega
    obtain ⟨m, hm⟩ : ∃ m, k - j = m + 1 := ⟨k - j - 1, by omega⟩
    simp only [nstepInner, if_pos h2]
    rw [hm]
    by_cases ht : t.getD (i + j) false = true
    · simp only [ht, if_true, nstepSumFrom, nstepStopFrom, add_zero]
    · simp only [ht, if_false, nstepSumFrom, nstepStopFrom]
      rcases Nat.eq_zero_or_pos m with hm0 | hmpos
      · -- j + 1 = k: the recursive call immediately returns
        subst hm0
        rw [nstepInner_of_ge γ t i k (j + 1) fuel _ _ (by omega)]
        simp only [nstepSumFrom, nstepStopFrom, add_zero, Nat.add_sub_cancel]
        simp
      · -- j + 1 < k: apply the induction hypothesis
        rw [ih (j + 1) _ _ (by omega) (by omega) (by omega) (by simpa using hr)
          (by simpa using hn)]
        have hkj : k - (j + 1) = m := by omega
        rw [hkj, set_set_same, set_set_same,
          getD_set_self r i (r.getD i 0 + γ ^ j * r.getD (i + j) 0) 0 hiL,
          nstepSumFrom_set γ r t i i _ m (j + 1) (by omega)]
        have hstop : 1 ≤ nstepStopFrom t i (j + 1) m := by
          have := nstepStopFrom_ge t i m (j + 1); omega
        rw [getD_set_ne n i (i + nstepStopFrom t i (j + 1) m) _ default (by omega)]
        rw [add_assoc]
        simp

/-! ## Characterization of the outer n-step loop -/

theorem nstepOuter_spec {σ : Type} [Inhabited σ] (γ : ℚ) (k bound : ℕ) (t : List Bool)
    (hk : 2 ≤ k) :
    ∀ fuel i₀ (r : List ℚ) (n : List σ),
      bound ≤ i₀ + fuel →
      bound + k ≤ r.length + 1 →
      n.length = r.length →
      ((∀ m, m < i₀ ∨ bound ≤ m →
          (nstepOuter γ k bound t i₀ fuel r n).1.getD m 0 = r.getD m 0
          ∧ (nstepOuter γ k bound t i₀ fuel r n).2.getD m default = n.getD m default)
       ∧ (∀ m, i₀ ≤ m → m < bound →
          (nstepOuter γ k bound t i₀ fuel r n).1.getD m 0
            = (if t.getD m false then r.getD m 0
               else r.getD m 0 + nstepSumFrom γ r t m 1 (k - 1))
          ∧ (nstepOuter γ k bound t i₀ fuel r n).2.getD m default
            = (if t.getD m false then n.getD m default
               else n.getD (m + nstepStopFrom t m 1 (k - 1)) default))
       ∧ (nstepOuter γ k bound t i₀ fuel r n).1.length = r.length
       ∧ (nstepOuter γ k bound t i₀ fuel r n).2.length = n.length) := by
  intro fuel
  induction fuel with
  | zero =>
    intro i₀ r n hb _ _
    have hgoal : nstepOuter (σ := σ) γ k bound t i₀ 0 r n = (r, n) := rfl
    rw [hgoal]
    exact ⟨fun m _ => ⟨rfl, rfl⟩, fun m hm1 hm2 => absurd hm2 (by omega), rfl, rfl⟩
  | succ fuel ih =>
    intro i₀ r n hb hbk hnr
    by_cases hlt : i₀ < bound
    · by_cases ht0 : t.getD i₀ false = true
      · -- terminal at i₀: index skipped, arrays untouched this iteration
        have hgoal : nstepOuter γ k bound t i₀ (fuel + 1) r n
            = nstepOuter γ k bound t (i₀ + 1) fuel r n := by
          simp only [nstepOuter, if_pos hlt]
          rw [if_pos ht0]
        rw [hgoal]
        obtain ⟨IH1, IH2, IH3, IH4⟩ := ih (i₀ + 1) r n (by omega) hbk hnr
        refine ⟨?_, ?_, IH3, IH4⟩
        · intro m hm
          exact IH1 m (by omega)
        · intro m hm1 hm2
          rcases Nat.eq_or_lt_of_le hm1 with hmeq | hmlt
          · subst hmeq
            have h := IH1 i₀ (Or.inl (by omega))
            constructor
            · rw [h.1, if_pos ht0]
            · rw [h.2, if_pos ht0]
          · exact IH2 m (by omega) hm2
      · -- non-terminal at i₀: the inner window rewrites index i₀, then recurse
        have hgoal : nstepOuter γ k bound t i₀ (fuel + 1) r n
            = nstepOuter γ k bound t (i₀ + 1) fuel
                (r.set i₀ (r.getD i₀ 0 + nstepSumFrom γ r t i₀ 1 (k - 1)))
                (n.set i₀ (n.getD (i₀ + nstepStopFrom t i₀ 1 (k - 1)) default)) := by
          simp only [nstepOuter, if_pos hlt]
          rw [if_neg ht0]
          rw [nstepInner_spec γ t i₀ k k 1 r n (le_refl 1) (by omega) (by omega)
            (by omega) (by omega)]
        rw [hgoal]
        obtain ⟨IH1, IH2, IH3, IH4⟩ := ih (i₀ + 1)
          (r.set i₀ (r.getD i₀ 0 + nstepSumFrom γ r t i₀ 1 (k - 1)))
          (n.set i₀ (n.getD (i₀ + nstepStopFrom t i₀ 1 (k - 1)) default))
          (by omega) (by simpa using hbk) (by simpa using hnr)
        refine ⟨?_, ?_, by simpa using IH3, by simpa using IH4⟩
        · intro m hm
          have h := IH1 m (by omega)
          constructor
          · rw [h.1, getD_set_ne r i₀ m _ 0 (by omega)]
          · rw [h.2, getD_set_ne n i₀ m _ default (by omega)]
        · intro m hm1 hm2
          rcases Nat.eq_or_lt_of_le hm1 with hmeq | hmlt
          · subst hmeq
            have h := IH1 i₀ (Or.inl (by omega))
            constructor
            · rw [h.1, getD_set_self r i₀ _ 0 (by omega), if_neg ht0]
            · rw [h.2, getD_set_self n i₀ _ default (by omega), if_neg ht0]
          · have h := IH2 m (by omega) hm2
            constructor
            · rw [h.1, getD_set_ne r i₀ m _ 0 (by omega),
                nstepSumFrom_set γ r t m i₀ _ (k - 1) 1 (by omega)]
            · rw [h.2, getD_set_ne n i₀ m _ default (by omega),
                getD_set_ne n i₀ (m + nstepStopFrom t m 1 (k - 1)) _ default (by omega)]
    · -- i₀ ≥ bound: loop exits, arrays unchanged
      have hgoal : nstepOuter γ k bound t i₀ (fuel + 1) r n = (r, n) := by
        simp only [nstepOuter, if_neg hlt]
      rw [hgoal]
      exact ⟨fun m _ => ⟨rfl, rfl⟩, fun m hm1 hm2 => absurd hm2 (by omega), rfl, rfl⟩

/-! ## Claims about the n-step adjustment -/

/-- Claim C3: for n-step factor `k > 1` and discount `γ`, the adjustment
recomputes, for every transition index `i` in `[0, length-k]`, `reward[i]` as
the discounted sum `Σ_{j=0}^{k-1} γ^j·reward[i+j]`, stopping the summation
(treating later terms as 0) at the first `j` with `terminal[i+j]` true, sets
`next_state[i]` to `next_state[i+k-1]` (or to the state at the early
termination point), and truncates the batch to `original_length - (k-1)`,
dropping the trailing `k-1` transitions. -/
theorem nstep_adjustment_correct {σ α : Type} [Inhabited σ] (γ : ℚ) (k : ℕ)
    (b : Batch σ α) (i : ℕ) (hk : 2 ≤ k)
    (hs : b.states.length = b.rewards.length)
    (hn : b.next_states.length = b.rewards.length)
    (hkL : k ≤ b.rewards.length)
    (hi : i + k ≤ b.rewards.length) :
    (nstepAdjust γ k b).rewards.length = b.rewards.length - (k - 1)
    ∧ (nstepAdjust γ k b).next_states.length = b.rewards.length - (k - 1)
    ∧ (nstepAdjust γ k b).rewards.getD i 0 = nstepReturn γ b.rewards b.terminals i k
    ∧ (nstepAdjust γ k b).next_states.getD i default
        = b.next_states.getD (i + nstepStop b.terminals i k) default := by
  have h1k : 1 < k := by omega
  obtain ⟨O1, O2, O3, O4⟩ := nstepOuter_spec γ k (b.rewards.length + 1 - k) b.terminals hk
    (b.rewards.length + 1 - k) 0 b.rewards b.next_states (by omega) (by omega) hn
  have hnn : (0 : Int) ≤ (b.states.length : Int) - (k : Int) + 1 := by omega
  have htoNat : ((b.states.length : Int) - (k : Int) + 1).toNat
      = b.rewards.length + 1 - k := by omega
  have hadj : nstepAdjust γ k b =
      { states := (pyDelFrom b.states ((b.states.length : Int) - (k : Int) + 1) : List σ)
        actions := pyDelFrom b.actions ((b.states.length : Int) - (k : Int) + 1)
        rewards := pyDelFrom
          (nstepOuter γ k (b.rewards.length + 1 - k) b.terminals 0
            (b.rewards.length + 1 - k) b.rewards b.next_states).1
          ((b.states.length : Int) - (k : Int) + 1)
        next_states := pyDelFrom
          (nstepOuter γ k (b.rewards.length + 1 - k) b.terminals 0
            (b.rewards.length + 1 - k) b.rewards b.next_states).2
          ((b.states.length : Int) - (k : Int) + 1)
        terminals := pyDelFrom b.terminals ((b.states.length : Int) - (k : Int) + 1) } := by
    simp only [nstepAdjust, if_pos h1k]
  rw [hadj]
  simp only [pyDelFrom, if_pos hnn, htoNat]
  have hO := O2 i (by omega) (by omega)
  have hret : nstepReturn γ b.rewards b.terminals i k
      = (if b.terminals.getD i false then b.rewards.getD i 0
         else b.rewards.getD i 0 + nstepSumFrom γ b.rewards b.terminals i 1 (k - 1)) := by
    unfold nstepReturn
    obtain ⟨m, hm⟩ : ∃ m, k = m + 1 := ⟨k - 1, by omega⟩
    rw [hm]
    simp only [nstepSumFrom, pow_zero, one_mul, Nat.add_zero, Nat.add_sub_cancel]
    by_cases ht : b.terminals.getD i false = true
    · rw [if_pos ht, if_pos ht, add_zero]
    · rw [if_neg ht, if_neg ht]
  have hstop : nstepStop b.terminals i k
      = (if b.terminals.getD i false then 0
         else nstepStopFrom b.terminals i 1 (k - 1)) := by
    unfold nstepStop
    obtain ⟨m, hm⟩ : ∃ m, k = m + 1 := ⟨k - 1, by omega⟩
    rw [hm]
    simp only [nstepStopFrom, Nat.add_zero, Nat.add_sub_cancel]
  refine ⟨?_, ?_, ?_, ?_⟩
  · rw [List.length_take, O3]; omega
  · rw [List.length_take, O4, hn]; omega
  · rw [getD_take _ _ _ _ (by omega), hO.1, hret]
  · rw [getD_take _ _ _ _ (by omega), hO.2, hstop]
    by_cases ht : b.terminals.getD i false = true
    · rw [if_pos ht, if_pos ht, Nat.add_zero]
    · rw [if_neg ht, if_neg ht]

/-- Witness for C3 at a concrete input: `k = 3`, `γ = 99/100`, a batch of
three non-terminal transitions. -/
theorem nstep_adjustment_correct_witness :
    (nstepAdjust (99/100) 3 (Batch.mk ([10, 20, 30] : List ℚ) ([5, 6, 7] : List ℚ)
        [1, 2, 3] [11, 21, 31] [false, false, false])).rewards.getD 0 0
      = nstepReturn (99/100) [1, 2, 3] [false, false, false] 0 3 :=
  (nstep_adjustment_correct (99/100) 3
    (Batch.mk ([10, 20, 30] : List ℚ) ([5, 6, 7] : List ℚ)
      [1, 2, 3] [11, 21, 31] [false, false, false]) 0
    (by decide) (by decide) (by decide) (by decide) (by decide)).2.2.1

/-- Claim C5: for n-step factor `k = 1`, the adjustment is the identity on
the batch: rewards, next states and the batch length are all unchanged. -/
theorem nstep_noop_k1 {σ α : Type} [Inhabited σ] (γ : ℚ) (b : Batch σ α) :
    nstepAdjust γ 1 b = b := by
  simp [nstepAdjust]

/-- Claim C7: frame condition of the n-step adjustment — apart from the
rewritten reward/next-state fields and the dropped trailing `k-1` entries,
the batch is unchanged: the surviving states, actions and terminals are
exactly the prefix of length `original_length - (k-1)` of the lists as
assembled before adjustment, in the same order. -/
theorem nstep_frame {σ α : Type} [Inhabited σ] (γ : ℚ) (k : ℕ) (b : Batch σ α)
    (hk : 1 ≤ k)
    (ha : b.actions.length = b.states.length)
    (ht : b.terminals.length = b.states.length)
    (hkL : k ≤ b.states.length + 1) :
    (nstepAdjust γ k b).states = b.states.take (b.states.length + 1 - k)
    ∧ (nstepAdjust γ k b).actions = b.actions.take (b.states.length + 1 - k)
    ∧ (nstepAdjust γ k b).terminals = b.terminals.take (b.states.length + 1 - k) := by
  by_cases h1k : 1 < k
  · have hnn : (0 : Int) ≤ (b.states.length : Int) - (k : Int) + 1 := by omega
    have htoNat : ((b.states.length : Int) - (k : Int) + 1).toNat
        = b.states.length + 1 - k := by omega
    simp only [nstepAdjust, if_pos h1k, pyDelFrom, if_pos hnn, htoNat]
    refine ⟨?_, ?_, ?_⟩ <;> first | rfl | trivial
  · have hk1 : k = 1 := by omega
    subst hk1
    simp only [nstepAdjust, if_neg (by omega : ¬ (1:ℕ) < 1), Nat.add_sub_cancel]
    refine ⟨?_, ?_, ?_⟩
    · exact (List.take_length _).symm
    · rw [← ha]; exact (List.take_length _).symm
    · rw [← ht]; exact (List.take_length _).symm

/-- Witness for C7 at a concrete input (`k = 2`). -/
theorem nstep_frame_witness :
    (nstepAdjust (1/2) 2 (Batch.mk ([10, 20, 30] : List ℚ) ([5, 6, 7] : List ℚ)
        [1, 2, 3] [11, 21, 31] [false, true, false])).states
      = ([10, 20, 30] : List ℚ).take (([10, 20, 30] : List ℚ).length + 1 - 2)
    ∧ (nstepAdjust (1/2) 2 (Batch.mk ([10, 20, 30] : List ℚ) ([5, 6, 7] : List ℚ)
        [1, 2, 3] [11, 21, 31] [false, true, false])).actions
      = ([5, 6, 7] : List ℚ).take (([10, 20, 30] : List ℚ).length + 1 - 2)
    ∧ (nstepAdjust (1/2) 2 (Batch.mk ([10, 20, 30] : List ℚ) ([5, 6, 7] : List ℚ)
        [1, 2, 3] [11, 21, 31] [false, true, false])).terminals
      = [false, true, false].take (([10, 20, 30] : List ℚ).length + 1 - 2) :=
  nstep_frame (1/2) 2
    (Batch.mk ([10, 20, 30] : List ℚ) ([5, 6, 7] : List ℚ)
      [1, 2, 3] [11, 21, 31] [false, true, false])
    (by decide) (by decide) (by decide) (by decide)

/-! ## Priority weights (`_process_sample_if_necessary`, lines 424-449) -/

/-- Modelled from the spec: `SMALL_NUMBER` (imported from
`rlgraph/utils/util.py`, which is not among the extracted sources) is the
`ε_floor` of §4.6 — "a small positive constant preventing zero-probability
sampling downstream"; the library uses `1e-6`. -/
def SMALL_NUMBER : ℚ := 1 / 1000000

/-- The sample dict built at the end of `_process_sample_if_necessary`
(lines 442-449): compressed states, actions, rewards, terminals, compressed
next states and the importance weights. -/
structure ProcessedSample (β α : Type) where
  states : List β
  actions : List α
  rewards : List ℚ
  terminals : List Bool
  next_states : List β
  importance_weights : List ℚ

/-- `_process_sample_if_necessary` (lines 391-449): apply the n-step
adjustment, set `weights = np.ones_like(rewards)`, optionally replace them by
`np.abs(loss_per_item) + SMALL_NUMBER` where `loss_per_item` is produced by
the external td-loss collaborator on the adjusted batch, then compress the
state arrays.  Returns the sample dict and `len(rewards)`. -/
def processSample {σ α β : Type} [Inhabited σ] (compress : σ → β)
    (getTdLoss : List σ → List α → List ℚ → List Bool → List σ → List ℚ → List ℚ)
    (γ : ℚ) (k : ℕ) (computesWeights : Bool) (b : Batch σ α) :
    ProcessedSample β α × ℕ :=
  let b1 := nstepAdjust γ k b
  let ones : List ℚ := List.replicate b1.rewards.length 1
  let weights :=
    if computesWeights then
      (getTdLoss b1.states b1.actions b1.rewards b1.terminals b1.next_states ones).map
        (fun x => |x| + SMALL_NUMBER)
    else ones
  (⟨b1.states.map compress, b1.actions, b1.rewards, b1.terminals,
    b1.next_states.map compress, weights⟩, b1.rewards.length)

theorem getD_map {α β : Type _} (f : α → β) (l : List α) (i : ℕ) (d : β) (d' : α)
    (h : i < l.length) :
    (l.map f).getD i d = f (l.getD i d') := by
  induction l generalizing i with
  | nil => simp at h
  | cons x xs ih =>
    cases i with
    | zero => simp [List.getD]
    | succ n =>
      simp only [List.map, List.getD, List.getElem?_cons_succ]
      exact ih n (by simpa using h)

theorem getD_replicate {α : Type _} (a d : α) (n i : ℕ) (h : i < n) :
    (List.replicate n a).getD i d = a := by
  induction n generalizing i with
  | zero => omega
  | succ m ih =>
    cases i with
    | zero => simp [List.getD]
    | succ p =>
      simp only [List.replicate, List.getD, List.getElem?_cons_succ]
      exact ih p (by omega)

/-- Claim C6: when priority-weight computation is disabled every transition
in the emitted batch has weight exactly `1.0`; when enabled,
`weight[i] = abs(loss_per_item[i]) + ε_floor` for every `i`, where
`loss_per_item` is returned by the external loss collaborator and `ε_floor`
is a small positive constant. -/
theorem priority_weights_spec {σ α β : Type} [Inhabited σ] (compress : σ → β)
    (getTdLoss : List σ → List α → List ℚ → List Bool → List σ → List ℚ → List ℚ)
    (γ : ℚ) (k : ℕ) (b : Batch σ α) (i : ℕ)
    (hi : i < (nstepAdjust γ k b).rewards.length)
    (hloss : i < (getTdLoss (nstepAdjust γ k b).states (nstepAdjust γ k b).actions
        (nstepAdjust γ k b).rewards (nstepAdjust γ k b).terminals
        (nstepAdjust γ k b).next_states
        (List.replicate (nstepAdjust γ k b).rewards.length 1)).length) :
    (processSample compress getTdLoss γ k false b).1.importance_weights
        = List.replicate (nstepAdjust γ k b).rewards.length 1
    ∧ (processSample compress getTdLoss γ k false b).1.importance_weights.getD i 0 = 1
    ∧ (processSample compress getTdLoss γ k true b).1.importance_weights.getD i 0
        = |(getTdLoss (nstepAdjust γ k b).states (nstepAdjust γ k b).actions
            (nstepAdjust γ k b).rewards (nstepAdjust γ k b).terminals
            (nstepAdjust γ k b).next_states
            (List.replicate (nstepAdjust γ k b).rewards.length 1)).getD i 0|
          + SMALL_NUMBER
    ∧ 0 < SMALL_NUMBER := by
  refine ⟨rfl, ?_, ?_, by norm_num [SMALL_NUMBER]⟩
  · exact getD_replicate 1 0 _ i hi
  · exact getD_map (fun x => |x| + SMALL_NUMBER) _ i 0 0 hloss

/-- Witness for C6 at a concrete input: one slot, two transitions, `k = 1`;
the loss collaborator returns `[-3, 4]`. -/
theorem priority_weights_spec_witness :
    (processSample (fun q : ℚ => q)
        (fun _ _ _ _ _ _ => [(-3 : ℚ), 4]) 1 1 false
        (Batch.mk ([10, 20] : List ℚ) ([0, 1] : List ℚ) [1, 2] [11, 21]
          [false, false])).1.importance_weights
      = List.replicate (nstepAdjust 1 1 (Batch.mk ([10, 20] : List ℚ)
          ([0, 1] : List ℚ) [1, 2] [11, 21] [false, false])).rewards.length 1
    ∧ (processSample (fun q : ℚ => q)
        (fun _ _ _ _ _ _ => [(-3 : ℚ), 4]) 1 1 false
        (Batch.mk ([10, 20] : List ℚ) ([0, 1] : List ℚ) [1, 2] [11, 21]
          [false, false])).1.importance_weights.getD 0 0 = 1
    ∧ (processSample (fun q : ℚ => q)
        (fun _ _ _ _ _ _ => [(-3 : ℚ), 4]) 1 1 true
        (Batch.mk ([10, 20] : List ℚ) ([0, 1] : List ℚ) [1, 2] [11, 21]
          [false, false])).1.importance_weights.getD 0 0
      = |((fun (_ : List ℚ) (_ : List ℚ) (_ : List ℚ) (_ : List Bool) (_ : List ℚ)
            (_ : List ℚ) => [(-3 : ℚ), 4])
          (nstepAdjust 1 1 (Batch.mk ([10, 20] : List ℚ) ([0, 1] : List ℚ)
            [1, 2] [11, 21] [false, false])).states
          (nstepAdjust 1 1 (Batch.mk ([10, 20] : List ℚ) ([0, 1] : List ℚ)
            [1, 2] [11, 21] [false, false])).actions
          (nstepAdjust 1 1 (Batch.mk ([10, 20] : List ℚ) ([0, 1] : List ℚ)
            [1, 2] [11, 21] [false, false])).rewards
          (nstepAdjust 1 1 (Batch.mk ([10, 20] : List ℚ) ([0, 1] : List ℚ)
            [1, 2] [11, 21] [false, false])).terminals
          (nstepAdjust 1 1 (Batch.mk ([10, 20] : List ℚ) ([0, 1] : List ℚ)
            [1, 2] [11, 21] [false, false])).next_states
          (List.replicate (nstepAdjust 1 1 (Batch.mk ([10, 20] : List ℚ)
            ([0, 1] : List ℚ) [1, 2] [11, 21] [false, false])).rewards.length 1)).getD 0 0|
        + SMALL_NUMBER
    ∧ 0 < SMALL_NUMBER :=
  priority_weights_spec (fun q : ℚ => q) (fun _ _ _ _ _ _ => [(-3 : ℚ), 4]) 1 1
    (Batch.mk ([10, 20] : List ℚ) ([0, 1] : List ℚ) [1, 2] [11, 21] [false, false]) 0
    (by simp [nstepAdjust]) (by simp)

/-! ## IEEE non-finite behaviour of the priority-weight computation

`np.abs(loss_per_item) + SMALL_NUMBER` is a float computation; to settle the
claim about non-finite losses we model floats as exact rationals extended
with `+∞`, `-∞` and NaN, with the IEEE rules for `abs` and `+`. -/

inductive EFloat where
  | fin : ℚ → EFloat
  | inf : EFloat
  | ninf : EFloat
  | nan : EFloat
deriving DecidableEq

def EFloat.abs : EFloat → EFloat
  | fin q => fin |q|
  | inf => inf
  | ninf => inf
  | nan => nan

def EFloat.add : EFloat → EFloat → EFloat
  | nan, _ => nan
  | _, nan => nan
  | inf, ninf => nan
  | ninf, inf => nan
  | inf, _ => inf
  | _, inf => inf
  | ninf, _ => ninf
  | _, ninf => ninf
  | fin a, fin b => fin (a + b)

def EFloat.isFinite : EFloat → Bool
  | fin _ => true
  | _ => false

/-- Float-semantics model of line 440 of `ray_worker.py`
(`weights = np.abs(loss_per_item) + SMALL_NUMBER`): elementwise absolute
value plus the floor constant, in extended IEEE arithmetic. -/
def floatPriorityWeights (eps : ℚ) (loss : List EFloat) : List EFloat :=
  loss.map fun x => EFloat.add x.abs (EFloat.fin eps)

/-- Counterexample to claim C9 as stated: an infinite per-item loss is not
clamped to the floor constant — `abs(+∞) + ε = +∞`, so the non-finite value
propagates into the emitted weights. -/
theorem priority_weight_nonfinite_counterexample :
    floatPriorityWeights SMALL_NUMBER [EFloat.inf] = [EFloat.inf]
    ∧ ¬ (∀ w ∈ floatPriorityWeights SMALL_NUMBER [EFloat.inf], w.isFinite = true) := by
  constructor
  · rfl
  · intro h
    exact absurd (h EFloat.inf (by simp [floatPriorityWeights, EFloat.abs, EFloat.add]))
      (by simp [EFloat.isFinite])

/-- Claim C9 amended: the code performs no clamping.  Every weight is
elementwise `abs(loss) + ε_floor`; a non-finite per-item loss therefore
yields a non-finite weight, and only for finite losses is the weight finite
— in which case it is at least `ε_floor`. -/
theorem priority_weight_float_behavior (loss : List EFloat) (i : ℕ)
    (hi : i < loss.length) :
    (floatPriorityWeights SMALL_NUMBER loss).getD i EFloat.nan
      = EFloat.add (loss.getD i EFloat.nan).abs (EFloat.fin SMALL_NUMBER)
    ∧ ((loss.getD i EFloat.nan).isFinite = false →
        ((floatPriorityWeights SMALL_NUMBER loss).getD i EFloat.nan).isFinite = false)
    ∧ (∀ q : ℚ, loss.getD i EFloat.nan = EFloat.fin q →
        (floatPriorityWeights SMALL_NUMBER loss).getD i EFloat.nan
          = EFloat.fin (|q| + SMALL_NUMBER)
        ∧ SMALL_NUMBER ≤ |q| + SMALL_NUMBER) := by
  have hmap : (floatPriorityWeights SMALL_NUMBER loss).getD i EFloat.nan
      = EFloat.add (loss.getD i EFloat.nan).abs (EFloat.fin SMALL_NUMBER) :=
    by
      unfold floatPriorityWeights
      exact getD_map _ loss i EFloat.nan EFloat.nan hi
  refine ⟨hmap, ?_, ?_⟩
  · intro hnf
    rw [hmap]
    cases h : loss.getD i EFloat.nan with
    | fin q => rw [h] at hnf; simp [EFloat.isFinite] at hnf
    | inf => simp [EFloat.abs, EFloat.add, EFloat.isFinite]
    | ninf => simp [EFloat.abs, EFloat.add, EFloat.isFinite]
    | nan => simp [EFloat.abs, EFloat.add, EFloat.isFinite]
  · intro q hq
    rw [hmap, hq]
    refine ⟨by simp [EFloat.abs, EFloat.add], ?_⟩
    have := abs_nonneg q
    linarith

/-- Witness for the amended C9 at the concrete input `loss = [+∞]`. -/
theorem priority_weight_float_behavior_witness :
    (floatPriorityWeights SMALL_NUMBER [EFloat.inf]).getD 0 EFloat.nan
      = EFloat.add (([EFloat.inf] : List EFloat).getD 0 EFloat.nan).abs
          (EFloat.fin SMALL_NUMBER)
    ∧ ((([EFloat.inf] : List EFloat).getD 0 EFloat.nan).isFinite = false →
        ((floatPriorityWeights SMALL_NUMBER [EFloat.inf]).getD 0 EFloat.nan).isFinite
          = false)
    ∧ (∀ q : ℚ, ([EFloat.inf] : List EFloat).getD 0 EFloat.nan = EFloat.fin q →
        (floatPriorityWeights SMALL_NUMBER [EFloat.inf]).getD 0 EFloat.nan
          = EFloat.fin (|q| + SMALL_NUMBER)
        ∧ SMALL_NUMBER ≤ |q| + SMALL_NUMBER) :=
  priority_weight_float_behavior [EFloat.inf] 0 (by decide)

/-! ## Batch assembly (lines 304-326) and slot provenance (claim C4) -/

/-- One slot's per-call sample lists (`sample_states[env_id]` etc.), plus the
final next state appended by the assembly (`zero_batched_state` or the
preprocessed final observation, line 313-323). -/
structure SlotSample (σ α : Type) where
  states : List σ
  finalNext : σ
  actions : List α
  rewards : List ℚ
  terminals : List Bool

/-- The merge loop of `execute_and_get_timesteps` (lines 304-326): per
environment, in slot order, `extend` the batch lists with that slot's
samples; the slot's `next_states` are its states shifted by one, closed by
the final next state.  The result is a flat concatenation of per-slot
contiguous blocks, with no slot tag on the transitions. -/
def assembleFromSlots {σ α : Type} (samples : List (SlotSample σ α)) : Batch σ α :=
  { states := (samples.map fun s => s.states).flatten
    actions := (samples.map fun s => s.actions).flatten
    rewards := (samples.map fun s => s.rewards).flatten
    next_states := (samples.map fun s => s.states.drop 1 ++ [s.finalNext]).flatten
    terminals := (samples.map fun s => s.terminals).flatten }

/-- Which slot's block a flat batch index belongs to, given the per-slot
block lengths. -/
def slotOfIndex (lens : List ℕ) (i : ℕ) : ℕ :=
  match lens with
  | [] => 0
  | L :: rest => if i < L then 0 else slotOfIndex rest (i - L) + 1

/-- Claim C4 fails on the code: with two slots of two transitions each and
`k = 2`, flat index 1 is slot 0's last transition but its n-step window reads
flat index 2, which is slot 1's first transition — the adjusted reward of a
slot-0 transition incorporates slot 1's reward, and changes when only slot
1's trajectory changes. -/
theorem nstep_window_crosses_slots :
    slotOfIndex [2, 2] 1 = 0 ∧ slotOfIndex [2, 2] 2 = 1
    ∧ (nstepAdjust (1/2) 2 (assembleFromSlots
        [SlotSample.mk ([10, 20] : List ℚ) (30 : ℚ) ([0, 0] : List ℚ) [1, 1] [false, false],
         SlotSample.mk ([40, 50] : List ℚ) (60 : ℚ) ([0, 0] : List ℚ) [5, 5]
           [false, false]])).rewards.getD 1 0
      = 1 + (1/2) * 5
    ∧ (nstepAdjust (1/2) 2 (assembleFromSlots
        [SlotSample.mk ([10, 20] : List ℚ) (30 : ℚ) ([0, 0] : List ℚ) [1, 1] [false, false],
         SlotSample.mk ([40, 50] : List ℚ) (60 : ℚ) ([0, 0] : List ℚ) [5, 5]
           [false, false]])).rewards.getD 1 0
      ≠ (nstepAdjust (1/2) 2 (assembleFromSlots
        [SlotSample.mk ([10, 20] : List ℚ) (30 : ℚ) ([0, 0] : List ℚ) [1, 1] [false, false],
         SlotSample.mk ([40, 50] : List ℚ) (60 : ℚ) ([0, 0] : List ℚ) [9, 5]
           [false, false]])).rewards.getD 1 0 := by
  refine ⟨by decide, by decide, ?_, ?_⟩
  · norm_num [assembleFromSlots, nstepAdjust, nstepOuter, nstepInner, pyDelFrom,
      List.getD]
  · norm_num [assembleFromSlots, nstepAdjust, nstepOuter, nstepInner, pyDelFrom,
      List.getD]

/-! ## The collection loop (`execute_and_get_timesteps`, lines 196-343)

The worker's per-slot state (`EnvironmentSlot` of spec §3) bundles the
parallel per-index entries of `self.last_states`, the preprocessor stacks,
`self.last_ep_rewards`, `self.last_ep_timesteps` and the per-slot history
lists `self.finished_episode_rewards` / `self.finished_episode_timesteps`.
The external collaborators — the per-slot environment of
`SequentialVectorEnv`, the per-slot `PreprocessorStack` and the agent's
policy — are abstract section variables.  The policy and the environment are
deterministic functions, matching the spec's "same environment and policy
behaviour" reading of repeated calls. -/

structure EnvStepResult (E O : Type) where
  nextEnv : E
  obs : O
  reward : ℚ
  terminal : Bool
deriving DecidableEq

structure Slot (E O P : Type) where
  env : E
  lastState : O
  prep : P
  curReward : ℚ
  curTimesteps : ℕ
  histRewards : List ℚ
  histTimesteps : List ℕ
deriving DecidableEq

/-- The `WorkerCarryState` of spec §3: everything the loop body of
`execute_and_get_timesteps` reads and writes across iterations (and, via
`self.last_*`, across calls). -/
structure CarryState (E O P : Type) where
  slots : List (Slot E O P)
  lastTerminals : List Bool
  episodesExecuted : ℕ
deriving DecidableEq

/-- The whole worker instance state: the carry plus the cumulative metrics
(`self.total_worker_steps`, `self.sample_steps`, `self.sample_env_frames`).
Wall-clock `self.sample_times` is not modelled (real time). -/
structure WorkerState (E O P : Type) where
  carry : CarryState E O P
  totalWorkerSteps : ℕ
  sampleSteps : List ℕ
  sampleEnvFrames : List ℕ
deriving DecidableEq

section Worker

variable {E O A P : Type}
variable (envStep : E → A → EnvStepResult E O)
variable (envReset : E → E × O)
variable (preprocess : P → O → P × O)
variable (preReset : P → P)
variable (policy : List O → List A)

/-- The per-slot accounting of one loop iteration (lines 266-288): increment
the running length, add the step reward, and — on a terminal or on the
`0 < max_timesteps_per_episode <= current_episode_timesteps[i]` cutoff —
append exactly one `(reward, length)` record to the slot's history, reset
the accumulators to zero and reset the slot's environment entry and
preprocessor.  Returns the new slot, the raw terminal flag, and whether the
episode was finalized. -/
def slotStep (maxT : ℕ) (sl : Slot E O P) (a : A) : Slot E O P × Bool × Bool :=
  let p1 := (preprocess sl.prep sl.lastState).1
  let res := envStep sl.env a
  let curT := sl.curTimesteps + 1
  let curR := sl.curReward + res.reward
  if res.terminal ∨ (0 < maxT ∧ maxT ≤ curT) then
    let er := envReset res.nextEnv
    ({ env := er.1, lastState := er.2, prep := preReset p1, curReward := 0,
       curTimesteps := 0, histRewards := sl.histRewards ++ [curR],
       histTimesteps := sl.histTimesteps ++ [curT] }, res.terminal, true)
  else
    ({ env := res.nextEnv, lastState := res.obs, prep := p1, curReward := curR,
       curTimesteps := curT, histRewards := sl.histRewards,
       histTimesteps := sl.histTimesteps }, res.terminal, false)

/-- One lockstep iteration of the collection loop (lines 234-292):
preprocess every slot's current state, obtain the whole action batch from
the policy, step every sub-environment, then run the per-slot accounting.
`episodes_executed` counts every finalization. -/
def stepOnce (maxT : ℕ) (c : CarryState E O P) : CarryState E O P :=
  let actions := policy (c.slots.map fun sl => (preprocess sl.prep sl.lastState).2)
  let results := List.zipWith
    (fun sl a => slotStep envStep envReset preprocess preReset maxT sl a)
    c.slots actions
  { slots := results.map fun r => r.1
    lastTerminals := results.map fun r => r.2.1
    episodesExecuted := c.episodesExecuted + (results.countP fun r => r.2.2) }

/-- `np.any(terminals)` of the break check (line 290). -/
def anyTerminal (c : CarryState E O P) : Bool :=
  c.lastTerminals.any id

/-- The `while timesteps_executed < num_timesteps` loop (lines 233-292) with
the break check `0 < num_timesteps <= timesteps_executed or
(break_on_terminal and np.any(terminals))` of line 290, as a fuel-indexed
recursion; each iteration advances the counter by `N` environments.  The
fuel is instantiated with `num_timesteps`, which is never exhausted because
every iteration adds `N ≥ 1` timesteps. -/
def execLoop (N num : ℕ) (breakOnTerminal : Bool)
    (body : CarryState E O P → CarryState E O P) :
    ℕ → ℕ → CarryState E O P → CarryState E O P × ℕ
  | 0, t, c => (c, t)
  | fuel+1, t, c =>
    if t < num then
      let c1 := body c
      let t1 := t + N
      if (0 < num ∧ num ≤ t1) ∨ (breakOnTerminal ∧ anyTerminal c1) then (c1, t1)
      else execLoop N num breakOnTerminal body fuel t1 c1
    else (c, t)

/-- One full collection call (`execute_and_get_timesteps`): run the loop,
add the collected count to `self.total_worker_steps` (line 291, equivalent
to the in-loop increment because the count is `0` when the loop never ran),
record the throughput samples (lines 300-302), overwrite
`self.last_terminals` with the loop-local `terminals` (which is the initial
all-`False` list when `num_timesteps = 0`, line 232/294), and perform the
batch-merge preprocessing of each non-terminal slot's final next state
(lines 308-323), which advances that slot's preprocessor memory; when the
loop never ran the preprocessed value is the zero state buffer of line 217.
Returns the new worker state and `timesteps_executed`. -/
def executeCall (zeroObs : O) (N maxT num : ℕ) (breakOnTerminal : Bool)
    (s : WorkerState E O P) : WorkerState E O P × ℕ :=
  let lt := execLoop N num breakOnTerminal
    (stepOnce envStep envReset preprocess preReset policy maxT) num 0 s.carry
  let c1 := lt.1
  let t := lt.2
  let c2 := if num = 0 then { c1 with lastTerminals := List.replicate N false } else c1
  let slots2 := (c2.slots.zip c2.lastTerminals).map fun x =>
    if x.2 then x.1
    else { x.1 with
      prep := (preprocess x.1.prep (if num = 0 then zeroObs else x.1.lastState)).1 }
  ({ carry := { slots := slots2, lastTerminals := c2.lastTerminals,
                episodesExecuted := c2.episodesExecuted }
     totalWorkerSteps := s.totalWorkerSteps + t
     sampleSteps := s.sampleSteps ++ [t]
     sampleEnvFrames := s.sampleEnvFrames ++ [t] }, t)

end Worker

/-! ## Loop lemmas -/

theorem execLoop_count {E O P : Type} (N num : ℕ)
    (body : CarryState E O P → CarryState E O P) (hN : 0 < N) :
    ∀ fuel t (c : CarryState E O P), N ∣ t → num ≤ t + fuel * N → t < num →
      num ≤ (execLoop N num false body fuel t c).2
      ∧ N ∣ (execLoop N num false body fuel t c).2
      ∧ (execLoop N num false body fuel t c).2 < num + N := by
  intro fuel
  induction fuel with
  | zero => intro t c _ hle hlt; omega
  | succ fuel ih =>
    intro t c hdvd hle hlt
    have hexp : (fuel + 1) * N = fuel * N + N := Nat.succ_mul fuel N
    simp only [execLoop, if_pos hlt]
    by_cases hbr : num ≤ t + N
    · rw [if_pos (Or.inl ⟨by omega, hbr⟩)]
      exact ⟨hbr, by exact Dvd.dvd.add hdvd dvd_rfl, by omega⟩
    · rw [if_neg ?_]
      · exact ih (t + N) (body c) (Dvd.dvd.add hdvd dvd_rfl) (by omega) (by omega)
      · intro h
        rcases h with h1 | h2
        · exact hbr h1.2
        · simp at h2

theorem dvd_lt_imp_add_le (N t num : ℕ) (hN : 0 < N) (ht : N ∣ t) (hnum : N ∣ num)
    (hlt : t < num) : t + N ≤ num := by
  rcases ht with ⟨qt, rfl⟩
  rcases hnum with ⟨qn, rfl⟩
  have hq : qt < qn := lt_of_mul_lt_mul_left hlt (Nat.zero_le N)
  calc N * qt + N = N * (qt + 1) := by ring
    _ ≤ N * qn := Nat.mul_le_mul_left N hq

theorem execLoop_iterate {E O P : Type} (N num : ℕ)
    (body : CarryState E O P → CarryState E O P) (hN : 0 < N) (hdvd : N ∣ num) :
    ∀ fuel t (c : CarryState E O P), N ∣ t → t ≤ num → num ≤ t + fuel * N →
      execLoop N num false body fuel t c = (body^[(num - t) / N] c, num) := by
  intro fuel
  induction fuel with
  | zero =>
    intro t c _ htle hle
    have ht : t = num := by omega
    subst ht
    simp [execLoop, Nat.sub_self]
  | succ fuel ih =>
    intro t c hdt htle hle
    have hexp : (fuel + 1) * N = fuel * N + N := Nat.succ_mul fuel N
    rcases Nat.eq_or_lt_of_le htle with heq | hlt
    · subst heq
      simp [execLoop, Nat.sub_self]
    · have hstep : t + N ≤ num := dvd_lt_imp_add_le N t num hN hdt hdvd hlt
      simp only [execLoop, if_pos hlt]
      by_cases hbr : num ≤ t + N
      · have heqn : t + N = num := by omega
        rw [if_pos (Or.inl ⟨by omega, hbr⟩)]
        have hd : (num - t) / N = 1 := by
          have : num - t = N := by omega
          rw [this, Nat.div_self hN]
        rw [hd, Function.iterate_one, heqn]
      · rw [if_neg ?_]
        · rw [ih (t + N) (body c) (Dvd.dvd.add hdt dvd_rfl) (by omega) (by omega)]
          have hsub : num - t = (num - (t + N)) + N := by omega
          have hdiv : (num - t) / N = (num - (t + N)) / N + 1 := by
            rw [hsub, Nat.add_div_right _ hN]
          rw [hdiv, Function.iterate_succ_apply]
        · intro h
          rcases h with h1 | h2
          · exact hbr h1.2
          · simp at h2

/-! ## Claim C1: collected timesteps -/

/-- Claim C1: for a worker with `N` environment slots and any requested
`num_timesteps > 0`, a single collection call with `break_on_terminal` false
collects exactly the smallest multiple of `N` that is `≥ num_timesteps`
(equivalently, a multiple of `N` overshooting by at most `N-1`). -/
theorem collected_timesteps_smallest_multiple {E O A P : Type}
    (envStep : E → A → EnvStepResult E O) (envReset : E → E × O)
    (preprocess : P → O → P × O) (preReset : P → P) (policy : List O → List A)
    (zeroObs : O) (N maxT num : ℕ) (s : WorkerState E O P)
    (hN : 0 < N) (hnum : 0 < num) :
    num ≤ (executeCall envStep envReset preprocess preReset policy zeroObs
        N maxT num false s).2
    ∧ N ∣ (executeCall envStep envReset preprocess preReset policy zeroObs
        N maxT num false s).2
    ∧ ∀ m, N ∣ m → num ≤ m →
        (executeCall envStep envReset preprocess preReset policy zeroObs
          N maxT num false s).2 ≤ m := by
  have hT : (executeCall envStep envReset preprocess preReset policy zeroObs
        N maxT num false s).2
      = (execLoop N num false
          (stepOnce envStep envReset preprocess preReset policy maxT) num 0 s.carry).2 := rfl
  have hmul : num ≤ 0 + num * N := by
    have h := Nat.mul_le_mul_left num hN
    omega
  obtain ⟨h1, h2, h3⟩ := execLoop_count N num
    (stepOnce envStep envReset preprocess preReset policy maxT) hN num 0 s.carry
    (dvd_zero N) hmul hnum
  rw [hT]
  refine ⟨h1, h2, ?_⟩
  intro m hm hnm
  rcases h2 with ⟨q, hq⟩
  rcases hm with ⟨qm, rfl⟩
  have hlt : N * q < N * (qm + 1) := by
    have : N * q < num + N := hq ▸ h3
    have : N * q < N * qm + N := by omega
    calc N * q < N * qm + N := this
      _ = N * (qm + 1) := by ring
  have hle : q ≤ qm := by
    have := lt_of_mul_lt_mul_left hlt (Nat.zero_le N)
    omega
  rw [hq]
  exact Nat.mul_le_mul_left N hle

/-! Concrete deterministic collaborators used to evaluate the worker model:
counter environments that never terminate with reward 1, identity
preprocessors, and the identity policy. -/

def demoEnvStep : ℕ → ℕ → EnvStepResult ℕ ℕ := fun e _ => ⟨e + 1, e + 1, 1, false⟩

def demoEnvReset : ℕ → ℕ × ℕ := fun _ => (0, 0)

def demoPre : ℕ → ℕ → ℕ × ℕ := fun p o => (p, o)

def demoPreReset : ℕ → ℕ := fun p => p

def demoPolicy : List ℕ → List ℕ := fun ss => ss

def demoSlot : Slot ℕ ℕ ℕ := ⟨0, 0, 0, 0, 0, [], []⟩

def demoWorker (n : ℕ) : WorkerState ℕ ℕ ℕ :=
  ⟨⟨List.replicate n demoSlot, List.replicate n false, 0⟩, 0, [], []⟩

/-- Witness for C1: `N = 4` slots, `num_timesteps = 10` — the call collects
between 10 and 12 timesteps, a multiple of 4, hence exactly 12. -/
theorem collected_timesteps_smallest_multiple_witness :
    10 ≤ (executeCall demoEnvStep demoEnvReset demoPre demoPreReset demoPolicy
        0 4 0 10 false (demoWorker 4)).2
    ∧ 4 ∣ (executeCall demoEnvStep demoEnvReset demoPre demoPreReset demoPolicy
        0 4 0 10 false (demoWorker 4)).2
    ∧ (executeCall demoEnvStep demoEnvReset demoPre demoPreReset demoPolicy
        0 4 0 10 false (demoWorker 4)).2 ≤ 12 := by
  have h := collected_timesteps_smallest_multiple demoEnvStep demoEnvReset demoPre
    demoPreReset demoPolicy 0 4 0 10 (demoWorker 4) (by decide) (by decide)
  exact ⟨h.1, h.2.1, h.2.2 12 (by decide) (by decide)⟩

/-! ## Claim C2: per-slot episode finalization -/

theorem getElem?_zipWith' {α β γ : Type _} (f : α → β → γ) (as : List α) (bs : List β)
    (i : ℕ) :
    (List.zipWith f as bs)[i]? = (as[i]?).bind fun a => (bs[i]?).map fun b => f a b := by
  induction as generalizing bs i with
  | nil => simp
  | cons x xs ih =>
    cases bs with
    | nil => simp
    | cons y ys =>
      cases i with
      | zero => simp
      | succ n => simp [ih]

/-- Claim C2: in every lockstep iteration of a collection call, for every
slot whose environment reports terminal or which reaches the configured
`max_timesteps_per_episode` cutoff, exactly one episode record
`(running_reward, running_length)` is appended to that slot's history, the
slot's running reward and running length are reset to `(0, 0)`, and the
slot's environment entry and preprocessor are reset; for every other slot
the history is unchanged and the accumulators advance. -/
theorem episode_finalization_per_slot {E O A P : Type}
    (envStep : E → A → EnvStepResult E O) (envReset : E → E × O)
    (preprocess : P → O → P × O) (preReset : P → P) (policy : List O → List A)
    (maxT : ℕ) (c : CarryState E O P) (i : ℕ) (a : A)
    (sl : Slot E O P) (res : EnvStepResult E O)
    (hi : i < c.slots.length)
    (hsl : c.slots[i] = sl)
    (ha : (policy (c.slots.map fun s0 => (preprocess s0.prep s0.lastState).2))[i]?
        = some a)
    (hres : envStep sl.env a = res) :
    ((res.terminal = true ∨ (0 < maxT ∧ maxT ≤ sl.curTimesteps + 1)) →
      (stepOnce envStep envReset preprocess preReset policy maxT c).slots[i]?
        = some { env := (envReset res.nextEnv).1
                 lastState := (envReset res.nextEnv).2
                 prep := preReset (preprocess sl.prep sl.lastState).1
                 curReward := 0
                 curTimesteps := 0
                 histRewards := sl.histRewards ++ [sl.curReward + res.reward]
                 histTimesteps := sl.histTimesteps ++ [sl.curTimesteps + 1] })
    ∧ (¬ (res.terminal = true ∨ (0 < maxT ∧ maxT ≤ sl.curTimesteps + 1)) →
      (stepOnce envStep envReset preprocess preReset policy maxT c).slots[i]?
        = some { env := res.nextEnv
                 lastState := res.obs
                 prep := (preprocess sl.prep sl.lastState).1
                 curReward := sl.curReward + res.reward
                 curTimesteps := sl.curTimesteps + 1
                 histRewards := sl.histRewards
                 histTimesteps := sl.histTimesteps }) := by
  have hkey : (stepOnce envStep envReset preprocess preReset policy maxT c).slots[i]?
      = some (slotStep envStep envReset preprocess preReset maxT sl a).1 := by
    simp only [stepOnce]
    rw [List.getElem?_map, getElem?_zipWith', List.getElem?_eq_getElem hi, hsl, ha]
    rfl
  rw [hkey]
  constructor
  · intro hfin
    simp only [slotStep, hres]
    rw [if_pos hfin]
  · intro hfin
    simp only [slotStep, hres]
    rw [if_neg hfin]

/-- Witness for C2: a single slot whose environment reports terminal — the
finalization branch fires. -/
theorem episode_finalization_per_slot_witness :
    (stepOnce (fun e a => EnvStepResult.mk (e + 1) (e + a) 2 true)
        (fun _ => ((0 : ℕ), (42 : ℕ))) (fun p o => (p, o)) (fun p => p)
        (fun ss => ss) 0
        (CarryState.mk [Slot.mk 5 7 9 (3 : ℚ) 4 [] []] [false] 0)).slots[0]?
      = some { env := ((0 : ℕ), (42 : ℕ)).1
               lastState := ((0 : ℕ), (42 : ℕ)).2
               prep := (9 : ℕ)
               curReward := 0
               curTimesteps := 0
               histRewards := [] ++ [(3 : ℚ) + (EnvStepResult.mk (6 : ℕ) (12 : ℕ) 2 true).reward]
               histTimesteps := [] ++ [4 + 1] } := by
  have h := episode_finalization_per_slot
    (fun e a => EnvStepResult.mk (e + 1) (e + a) 2 true)
    (fun _ => ((0 : ℕ), (42 : ℕ))) (fun p o => (p, o)) (fun p => p) (fun ss => ss) 0
    (CarryState.mk [Slot.mk 5 7 9 (3 : ℚ) 4 [] []] [false] 0) 0 7
    (Slot.mk 5 7 9 (3 : ℚ) 4 [] []) (EnvStepResult.mk 6 12 2 true)
    (by decide) rfl rfl rfl
  exact h.1 (Or.inl rfl)

/-! ## Claim C8: resumability across calls -/

theorem executeCall_carry {E O A P : Type}
    (envStep : E → A → EnvStepResult E O) (envReset : E → E × O)
    (preprocess : P → O → P × O) (preReset : P → P) (policy : List O → List A)
    (zeroObs : O) (N maxT num : ℕ) (s : WorkerState E O P)
    (hN : 0 < N) (hpos : 0 < num) (hdvd : N ∣ num)
    (hpre : ∀ p o, (preprocess p o).1 = p) :
    executeCall envStep envReset preprocess preReset policy zeroObs N maxT num false s
      = ({ carry := (stepOnce envStep envReset preprocess preReset policy maxT)^[num / N]
            s.carry
           totalWorkerSteps := s.totalWorkerSteps + num
           sampleSteps := s.sampleSteps ++ [num]
           sampleEnvFrames := s.sampleEnvFrames ++ [num] }, num) := by
  have hmul : num ≤ 0 + num * N := by
    have h := Nat.mul_le_mul_left num hN
    omega
  have hiter := execLoop_iterate N num
    (stepOnce envStep envReset preprocess preReset policy maxT) hN hdvd num 0 s.carry
    (dvd_zero N) (Nat.zero_le num) hmul
  rw [Nat.sub_zero] at hiter
  have hne : ¬ (num = 0) := by omega
  have hge : 1 ≤ num / N := (Nat.one_le_div_iff hN).mpr (Nat.le_of_dvd hpos hdvd)
  have hlen : ((stepOnce envStep envReset preprocess preReset policy maxT)^[num / N]
        s.carry).slots.length
      = ((stepOnce envStep envReset preprocess preReset policy maxT)^[num / N]
        s.carry).lastTerminals.length := by
    obtain ⟨d, hd⟩ : ∃ d, num / N = d + 1 := ⟨num / N - 1, by omega⟩
    rw [hd, Function.iterate_succ_apply']
    simp [stepOnce]
  have hfun : (fun x : Slot E O P × Bool =>
      if x.2 then x.1
      else { x.1 with
        prep := (preprocess x.1.prep (if num = 0 then zeroObs else x.1.lastState)).1 })
      = Prod.fst := by
    funext x
    by_cases hx : x.2 = true
    · rw [if_pos hx]
    · rw [if_neg hx, hpre]
  unfold executeCall
  rw [hiter]
  simp only []
  rw [if_neg hne, hfun, List.map_fst_zip _ _ (le_of_eq hlen)]

/-- Claim C8 amended: splitting one collection run into two consecutive
calls yields the same final carry state (per-slot last state, running
reward, running length, per-slot episode histories, last-terminal flags,
episode counter) and the same cumulative step total as one call with the
combined budget, provided the split happens on a lockstep boundary (both
budgets are positive multiples of the slot count `N`) and the preprocessor
carries no mutable state across calls (as in the no-preprocessor
configuration).  The concatenated episode records are the per-slot history
lists inside the carry state. -/
theorem resumability_on_lockstep_boundaries {E O A P : Type}
    (envStep : E → A → EnvStepResult E O) (envReset : E → E × O)
    (preprocess : P → O → P × O) (preReset : P → P) (policy : List O → List A)
    (zeroObs : O) (N maxT a b : ℕ) (s : WorkerState E O P)
    (hN : 0 < N) (ha : 0 < a) (hb : 0 < b) (hda : N ∣ a) (hdb : N ∣ b)
    (hpre : ∀ p o, (preprocess p o).1 = p) :
    (executeCall envStep envReset preprocess preReset policy zeroObs N maxT b false
        (executeCall envStep envReset preprocess preReset policy zeroObs N maxT a false
          s).1).1.carry
      = (executeCall envStep envReset preprocess preReset policy zeroObs N maxT (a + b)
          false s).1.carry
    ∧ (executeCall envStep envReset preprocess preReset policy zeroObs N maxT b false
        (executeCall envStep envReset preprocess preReset policy zeroObs N maxT a false
          s).1).1.totalWorkerSteps
      = (executeCall envStep envReset preprocess preReset policy zeroObs N maxT (a + b)
          false s).1.totalWorkerSteps := by
  have h1 := executeCall_carry envStep envReset preprocess preReset policy zeroObs
    N maxT a s hN ha hda hpre
  have h2 := executeCall_carry envStep envReset preprocess preReset policy zeroObs
    N maxT b ((executeCall envStep envReset preprocess preReset policy zeroObs
      N maxT a false s).1) hN hb hdb hpre
  have hc := executeCall_carry envStep envReset preprocess preReset policy zeroObs
    N maxT (a + b) s hN (by omega) (Dvd.dvd.add hda hdb) hpre
  have hdiv : b / N + a / N = (a + b) / N := by
    rcases hda with ⟨qa, rfl⟩
    rcases hdb with ⟨qb, rfl⟩
    rw [← Nat.mul_add]
    simp only [Nat.mul_div_cancel_left _ hN]
    omega
  constructor
  · rw [h2, hc, h1]
    dsimp only
    rw [← Function.iterate_add_apply, hdiv]
  · rw [h2, hc, h1]
    dsimp only
    omega

/-- A preprocessor with internal memory (a call counter), used to exhibit
the second failure mode of claim C8. -/
def ctrPre : ℕ → ℕ → ℕ × ℕ := fun p o => (p + 1, o)

/-- Counterexample to claim C8 as stated ("for any budgets a and b with
a + b = c"): with `N = 2` slots and budgets `a = b = 1`, the two split calls
each overshoot to a full lockstep iteration, so the running episode lengths
after the two calls differ from those after one call with budget 2; and
with a stateful per-slot preprocessor, even lockstep-aligned budgets
(`N = 1`, `a = b = 1`) leave different preprocessor memory than one call
with budget 2, because each call's batch assembly preprocesses the final
next state once more. -/
theorem resumability_counterexample :
    ((executeCall demoEnvStep demoEnvReset demoPre demoPreReset demoPolicy 0 2 0 1 false
        (executeCall demoEnvStep demoEnvReset demoPre demoPreReset demoPolicy 0 2 0 1
          false (demoWorker 2)).1).1.carry.slots.map fun sl => sl.curTimesteps)
      ≠ ((executeCall demoEnvStep demoEnvReset demoPre demoPreReset demoPolicy 0 2 0 2
          false (demoWorker 2)).1.carry.slots.map fun sl => sl.curTimesteps)
    ∧ ((executeCall demoEnvStep demoEnvReset ctrPre demoPreReset demoPolicy 0 1 0 1 false
        (executeCall demoEnvStep demoEnvReset ctrPre demoPreReset demoPolicy 0 1 0 1
          false (demoWorker 1)).1).1.carry.slots.map fun sl => sl.prep)
      ≠ ((executeCall demoEnvStep demoEnvReset ctrPre demoPreReset demoPolicy 0 1 0 2
          false (demoWorker 1)).1.carry.slots.map fun sl => sl.prep) := by
  constructor
  · decide
  · decide

/-- Witness for the amended C8: `N = 2`, budgets `a = b = 2` (multiples of
`N`), stateless preprocessor. -/
theorem resumability_on_lockstep_boundaries_witness :
    (executeCall demoEnvStep demoEnvReset demoPre demoPreReset demoPolicy 0 2 0 2 false
        (executeCall demoEnvStep demoEnvReset demoPre demoPreReset demoPolicy 0 2 0 2
          false (demoWorker 2)).1).1.carry
      = (executeCall demoEnvStep demoEnvReset demoPre demoPreReset demoPolicy 0 2 0
          (2 + 2) false (demoWorker 2)).1.carry
    ∧ (executeCall demoEnvStep demoEnvReset demoPre demoPreReset demoPolicy 0 2 0 2 false
        (executeCall demoEnvStep demoEnvReset demoPre demoPreReset demoPolicy 0 2 0 2
          false (demoWorker 2)).1).1.totalWorkerSteps
      = (executeCall demoEnvStep demoEnvReset demoPre demoPreReset demoPolicy 0 2 0
          (2 + 2) false (demoWorker 2)).1.totalWorkerSteps :=
  resumability_on_lockstep_boundaries demoEnvStep demoEnvReset demoPre demoPreReset
    demoPolicy 0 2 0 2 2 (demoWorker 2) (by decide) (by decide) (by decide)
    (by decide) (by decide) (fun _ _ => rfl)

/-! ## Claim C10: `get_workload_statistics` (lines 353-389) -/

/-- The episode-related fields of the dict returned by
`get_workload_statistics`.  The wall-clock throughput fields
(`mean_worker_ops_per_second`, `mean_worker_env_frames_per_second`) are not
modelled (real time). -/
structure WorkloadStats where
  episodeTimesteps : List (List ℕ)
  episodeRewards : List (List ℚ)
  minEpisodeReward : Option ℚ
  maxEpisodeReward : Option ℚ
  meanEpisodeReward : Option ℚ
  finalEpisodeReward : Option ℚ
  episodesExecuted : ℕ
  workerSteps : ℕ
deriving DecidableEq

/-- `np.mean` of a list; `none` on the empty list (in the reachable paths it
is only applied after `np.min` has already raised there). -/
def npMean (l : List ℚ) : Option ℚ :=
  if l.length = 0 then none else some (l.sum / l.length)

/-- `get_workload_statistics`: guarded by
`len(self.finished_episode_rewards) > 0` — the length of the OUTER per-slot
list, i.e. the number of slots.  In the guarded branch, `np.min`/`np.max`
over the flattened reward list and the `env_rewards[-1]` indexing raise on
empty lists, modelled as `none`; the fallback branch returns the
`None`-placeholder record. -/
def getWorkloadStatistics {E O P : Type} (s : WorkerState E O P) : Option WorkloadStats :=
  if 0 < (s.carry.slots.map fun sl => sl.histRewards).length then
    ((s.carry.slots.map fun sl => sl.histRewards).flatten.min?).bind fun mn =>
    ((s.carry.slots.map fun sl => sl.histRewards).flatten.max?).bind fun mx =>
    (npMean (s.carry.slots.map fun sl => sl.histRewards).flatten).bind fun mean =>
    (((s.carry.slots.map fun sl => sl.histRewards).mapM List.getLast?).bind fun finals =>
    (npMean finals).map fun fm =>
      { episodeTimesteps := s.carry.slots.map fun sl => sl.histTimesteps
        episodeRewards := s.carry.slots.map fun sl => sl.histRewards
        minEpisodeReward := some mn
        maxEpisodeReward := some mx
        meanEpisodeReward := some mean
        finalEpisodeReward := some fm
        episodesExecuted := s.carry.episodesExecuted
        workerSteps := s.totalWorkerSteps })
  else
    some
      { episodeTimesteps := s.carry.slots.map fun sl => sl.histTimesteps
        episodeRewards := s.carry.slots.map fun sl => sl.histRewards
        minEpisodeReward := none
        maxEpisodeReward := none
        meanEpisodeReward := none
        finalEpisodeReward := none
        episodesExecuted := s.carry.episodesExecuted
        workerSteps := s.totalWorkerSteps }

/-- Claim C10: the guard of the statistics aggregation tests the number of
slots (the outer per-slot list), which is always positive, not the number
of finished episodes; consequently, called before any episode has finished,
the aggregation runs its reductions on an empty flattened list and the call
raises (`none`) instead of returning the documented `None` placeholders —
the fallback branch is unreachable for a worker with at least one slot. -/
theorem workload_statistics_empty_raises {E O P : Type} (s : WorkerState E O P)
    (hN : 0 < s.carry.slots.length)
    (hemp : ∀ sl ∈ s.carry.slots, sl.histRewards = ([] : List ℚ)) :
    (s.carry.slots.map fun sl => sl.histRewards).length = s.carry.slots.length
    ∧ getWorkloadStatistics s = none := by
  refine ⟨by simp, ?_⟩
  unfold getWorkloadStatistics
  rw [if_pos (by simpa using hN)]
  have hflat : (s.carry.slots.map fun sl => sl.histRewards).flatten = [] := by
    rw [List.flatten_eq_nil_iff]
    intro l hl
    rcases List.mem_map.mp hl with ⟨sl, hsl, rfl⟩
    exact hemp sl hsl
  rw [hflat]
  rfl

/-- Witness for C10: a freshly constructed single-slot worker with no
finished episodes. -/
theorem workload_statistics_empty_raises_witness :
    ((demoWorker 1).carry.slots.map fun sl => sl.histRewards).length
        = (demoWorker 1).carry.slots.length
    ∧ getWorkloadStatistics (demoWorker 1) = none :=
  workload_statistics_empty_raises (demoWorker 1) (by decide)
    (by
      intro sl hsl
      simp [demoWorker, List.mem_replicate] at hsl
      subst hsl
      rfl)
